import Mathlib

/-!
Shallow embedding of the `ansiterm` repository's escape-sequence core
(`src/ansiterm/parser.py`, `src/ansiterm/sauce.py`, `src/ansiterm/analyze.py`)
together with proofs settling the frozen claims C1..C10.

Text is modelled as `List Char`; byte buffers as `List Nat` (each entry a
byte value).  The Python generator `tokenize_ansi` is a while-loop over an
index `i`; we embed one loop iteration as a `step` function on the remaining
suffix of the input (every slice the source takes is relative to `i`), and
run it with explicit fuel, one unit per loop iteration.  `none` at every
fuel therefore means the loop never finishes.
-/

namespace Ansiterm

/-- The escape character `"\x1b"` used throughout `parser.py`. -/
def escChar : Char := '\x1b'

/-- Token categories of `tokenize_ansi` (the string tags of parser.py:64-121). -/
inductive TokType
  | text
  | sgr
  | cup
  | cursorMove
  | ed
  | el
  | dec
  | cursorSave
  | drop
  | other
deriving DecidableEq, Repr

/-- A `(type, content)` pair yielded by `tokenize_ansi`. -/
structure Token where
  ty : TokType
  content : List Char
deriving DecidableEq, Repr

/-- Membership in the parameter-byte set `"0123456789;?"` of parser.py:96. -/
def isParamChar (c : Char) : Bool :=
  c.isDigit || c == ';' || c == '?'

/-- Classification of a complete CSI sequence by its final byte
(parser.py:104-121).  `seq` is the whole sequence, used for the `"?" in seq`
test of the DEC branch. -/
def classify (safe : Bool) (seq : List Char) (fin : Char) : TokType :=
  if fin = 'm' then .sgr
  else if fin = 'H' ∨ fin = 'f' then .cup
  else if fin = 'A' ∨ fin = 'B' ∨ fin = 'C' ∨ fin = 'D' then .cursorMove
  else if fin = 'J' then .ed
  else if fin = 'K' then .el
  else if (fin = 'h' ∨ fin = 'l') ∧ seq.contains '?' then .dec
  else if fin = 's' ∨ fin = 'u' then .cursorSave
  else if safe then .drop
  else .other

/-- Scan for an OSC terminator (parser.py:130-140), on the suffix that
follows `ESC ]`.  At each position the source first tests for BEL, then for
the two-character `ESC \` pair.  Returns the length of the scanned part of
the token (so the whole token is that length plus the two leading
characters), or `none` when no terminator exists before end of input. -/
def oscFind : List Char → Option Nat
  | [] => none
  | c :: rest =>
    if c = '\x07' then some 1
    else if c = escChar ∧ rest.head? = some '\\' then some 2
    else (oscFind rest).map (· + 1)

/-- Result of one iteration of the `while i < len(text)` loop of
`tokenize_ansi`: yield a token and continue on a suffix, yield a final token
and break, or make no progress at all (the source's `i = next_esc` with
`next_esc == i`, parser.py:148-155). -/
inductive StepRes
  | emit (t : Token) (rest : List Char)
  | last (t : Token)
  | stall
deriving DecidableEq, Repr

/-- The `# Regular text` part of the loop body (parser.py:147-155):
`text.find("\x1b", i)` on the suffix `s`. If no escape exists the whole
suffix is one final text token; if the first escape is at the current
position the source sets `i = next_esc` without yielding (no progress);
otherwise the run up to the escape is one text token. -/
def stepText (s : List Char) : StepRes :=
  if (s.dropWhile (fun c => decide (c ≠ escChar))).isEmpty then .last ⟨.text, s⟩
  else if (s.takeWhile (fun c => decide (c ≠ escChar))).isEmpty then .stall
  else .emit ⟨.text, s.takeWhile (fun c => decide (c ≠ escChar))⟩
      (s.dropWhile (fun c => decide (c ≠ escChar)))

/-- One full iteration of the `tokenize_ansi` loop body (parser.py:88-155)
acting on the remaining suffix `s` of the input.  The CSI arm consumes the
maximal run of parameter characters after `ESC [` and needs a final byte; if
none exists before end of input, control falls through to the regular-text
part, exactly as in the source. -/
def step (safe : Bool) (s : List Char) : StepRes :=
  match s with
  | e :: c :: rest =>
    if e = escChar then
      if c = '[' then
        match rest.dropWhile isParamChar with
        | fin :: tail =>
          .emit ⟨classify safe (escChar :: '[' :: (rest.takeWhile isParamChar ++ [fin])) fin,
                 escChar :: '[' :: (rest.takeWhile isParamChar ++ [fin])⟩ tail
        | [] => stepText s
      else if c = ']' ∧ safe = true then
        match oscFind rest with
        | some n => .emit ⟨.drop, s.take (n + 2)⟩ (s.drop (n + 2))
        | none => .last ⟨.drop, s⟩
      else stepText s
    else stepText s
  | _ => stepText s

/-- Fuel-indexed run of the `tokenize_ansi` loop, one unit of fuel per loop
iteration.  `some toks` means the generator finishes, yielding `toks`;
`none` for every fuel means the loop never finishes. -/
def tokenizeFuel : Nat → Bool → List Char → Option (List Token)
  | 0, _, _ => none
  | fuel + 1, safe, s =>
    match s with
    | [] => some []
    | _ :: _ =>
      match step safe s with
      | .emit t rest => (tokenizeFuel fuel safe rest).map (t :: ·)
      | .last t => some [t]
      | .stall => tokenizeFuel fuel safe s

/-- `tokenize_ansi(text, safe_mode)` (parser.py:64-155).  Every productive
loop iteration consumes at least one character, so `length + 1` units of
fuel are enough whenever the loop terminates; `none` means the source
generator loops forever on this input. -/
def tokenize_ansi (s : List Char) (safe : Bool) : Option (List Token) :=
  tokenizeFuel (s.length + 1) safe s

/-- Concatenation of the contents of all tokens, the reassembly of the
tokenized text. -/
def flattenContents (toks : List Token) : List Char :=
  (toks.map Token.content).flatten

/-- Concatenation of the contents of the tokens whose type is not `drop`:
the loop body of `filter_safe` (parser.py:184-188). -/
def flattenKept (toks : List Token) : List Char :=
  ((toks.filter (fun t => decide (t.ty ≠ TokType.drop))).map Token.content).flatten

/-- `filter_safe(text)` (parser.py:158-188): run the tokenizer in safe mode
and join the contents of the non-`drop` tokens.  `none` when the underlying
tokenizer call never finishes. -/
def filter_safe (s : List Char) : Option (List Char) :=
  Option.map flattenKept (tokenize_ansi s true)

/-! ## iCE color transform (`ice_fix`, parser.py:15-61)

`re.sub(r"\x1b\[([0-9;]*)m", repl, text)` scans the text left to right for
non-overlapping matches of `ESC [ [0-9;]* m`.  Because `m` is not in the
character class, the greedy parameter run never backtracks: a match at a
position is exactly the maximal `[0-9;]` run after `ESC [` followed by `m`.
-/

/-- Membership in the regex character class `[0-9;]` of the SGR pattern
(parser.py:35). -/
def isSgrChar (c : Char) : Bool :=
  c.isDigit || c == ';'

/-- Try to match `ESC [ ([0-9;]*) m` at the head of `s`; on success return
the raw parameter text (regex group 1) and the remainder after the match. -/
def matchSGR? : List Char → Option (List Char × List Char)
  | e :: c :: rest =>
    if e = escChar ∧ c = '[' then
      match rest.dropWhile isSgrChar with
      | f :: tail => if f = 'm' then some (rest.takeWhile isSgrChar, tail) else none
      | [] => none
    else none
  | _ => none

/-- Split on `';'`, exactly `raw.split(";")` (always at least one piece;
empty pieces kept). -/
def splitSemis : List Char → List (List Char)
  | [] => [[]]
  | c :: rest =>
    if c = ';' then [] :: splitSemis rest
    else
      match splitSemis rest with
      | h :: t => (c :: h) :: t
      | [] => [[c]]

/-- `int(p)` on a non-empty digit string (the raw text matched `[0-9;]*`, so
each non-empty `';'`-piece is a digit string and `int` cannot fail; the
source's dead `ValueError` arm, parser.py:44-45, is therefore not modelled). -/
def digitsToNat (p : List Char) : Nat :=
  p.foldl (fun acc c => acc * 10 + (c.toNat - 48)) 0

/-- `[int(p) for p in raw.split(";") if p]` (parser.py:43). -/
def parseParams (raw : List Char) : List Nat :=
  (splitSemis raw).filterMap (fun p => if p = [] then none else some (digitsToNat p))

/-- The per-parameter rewrite of the loop at parser.py:52-57: backgrounds
40..47 become 100..107, blink (5) is dropped, everything else passes through. -/
def iceMap (p : Nat) : Option Nat :=
  if 40 ≤ p ∧ p ≤ 47 then some (p + 60)
  else if p = 5 then none
  else some p

/-- Decimal digits of `n`, i.e. `str(n)`, via a structurally recursive
helper (fuel is the number itself, always sufficient). -/
def natDigitsAux : Nat → Nat → List Char
  | 0, _ => []
  | f + 1, n =>
    if n < 10 then [Char.ofNat (48 + n)]
    else natDigitsAux f (n / 10) ++ [Char.ofNat (48 + n % 10)]

/-- `str(n)` for a natural number. -/
def natDigits (n : Nat) : List Char :=
  natDigitsAux (n + 1) n

/-- `";".join(map(str, out))` (parser.py:59). -/
def joinParams (ps : List Nat) : List Char :=
  List.intercalate [';'] (ps.map natDigits)

/-- The `repl` callback of `ice_fix` (parser.py:37-59), given the raw group
1 text of a match; returns the full replacement sequence. -/
def iceRepl (raw : List Char) : List Char :=
  if raw = [] then escChar :: '[' :: (raw ++ ['m'])
  else
    let params := parseParams raw
    if params.contains 5 = false then escChar :: '[' :: (raw ++ ['m'])
    else escChar :: '[' :: (joinParams (params.filterMap iceMap) ++ ['m'])

/-- Fuel-indexed left-to-right scan of `re.sub`: at each position either the
SGR pattern matches (emit the replacement, continue after the match) or the
character is copied and the scan advances one position. -/
def iceScanF : Nat → List Char → List Char
  | 0, s => s
  | fuel + 1, s =>
    match s with
    | [] => []
    | c :: rest =>
      match matchSGR? (c :: rest) with
      | some (raw, tail) => iceRepl raw ++ iceScanF fuel tail
      | none => c :: iceScanF fuel rest

/-- `ice_fix(text)` (parser.py:15-61).  Each scan step consumes at least one
character, so `length + 1` fuel always suffices. -/
def ice_fix (s : List Char) : List Char :=
  iceScanF (s.length + 1) s

/-! ## SAUCE metadata codec (`sauce.py`)

Byte buffers are `List Nat` (one entry per byte).  The cp437 text encoding
(`str.encode("cp437", errors="replace")`) maps every character to exactly
one byte; we model it as the identity on ASCII and the replacement byte
`'?' = 63` elsewhere (the exact high-table values never matter for the
claims, which only concern lengths and the magic prefix).  Likewise
`encode("ascii", errors="replace")`. -/

/-- One byte of `encode("cp437", errors="replace")` (modelled: identity on
ASCII, replacement `63` for characters outside it). -/
def cp437Byte (c : Char) : Nat :=
  if c.toNat < 128 then c.toNat else 63

/-- One byte of `encode("ascii", errors="replace")`. -/
def asciiByte (c : Char) : Nat :=
  if c.toNat < 128 then c.toNat else 63

/-- `bytes.ljust(w, fill)`. -/
def ljustB (l : List Nat) (w : Nat) (fill : Nat) : List Nat :=
  l ++ List.replicate (w - l.length) fill

/-- A text field of the SAUCE block: truncate to `w` characters, encode,
space-pad to `w` bytes (sauce.py:117-123). -/
def encField (s : List Char) (w : Nat) : List Nat :=
  ljustB ((s.take w).map cp437Byte) w 32

/-- `n.to_bytes(2, "little")` (defined for `n < 2^16`; Python raises
`OverflowError` beyond that, which the round-trip theorem excludes by
hypothesis). -/
def le2 (n : Nat) : List Nat :=
  [n % 256, n / 256 % 256]

/-- `n.to_bytes(4, "little")` (defined for `n < 2^32`). -/
def le4 (n : Nat) : List Nat :=
  [n % 256, n / 256 % 256, n / 65536 % 256, n / 16777216 % 256]

/-- The two TInfo bytes: zeros when the hint is absent (the bytearray is
zero-initialized and sauce.py:139-144 assigns only when not None). -/
def optLe2 : Option Nat → List Nat
  | none => [0, 0]
  | some v => le2 v

/-- The ASCII bytes of the magic `b"SAUCE"`. -/
def sauceMagic : List Nat := [83, 65, 85, 67, 69]

/-- The 128-byte SAUCE v00 record of `append_minimal_sauce`
(sauce.py:107-151): magic, version `"00"`, three space-padded text fields,
8-byte date, little-endian original length, data/file type bytes, two
optional TInfo words, and 28 reserved zero bytes. -/
def sauceBlock (origLen : Nat) (title author group yyyymmdd : List Char)
    (datatype filetype : Nat) (tinfo1 tinfo2 : Option Nat) : List Nat :=
  sauceMagic ++ ([48, 48]
    ++ encField title 35 ++ encField author 20 ++ encField group 20
    ++ ljustB ((yyyymmdd.take 8).map asciiByte) 8 32
    ++ le4 origLen ++ [datatype, filetype] ++ optLe2 tinfo1 ++ optLe2 tinfo2
    ++ List.replicate 28 0)

/-- `append_minimal_sauce(data, ...)` (sauce.py:61-152).  The `yyyymmdd`
argument is the caller-supplied date string; the source's `None` default
substitutes the current date (an 8-character digit string of the same
shape), which is outside a pure embedding and irrelevant to every claim. -/
def append_minimal_sauce (data : List Nat) (title author group yyyymmdd : List Char)
    (datatype filetype : Nat) (tinfo1 tinfo2 : Option Nat) : List Nat :=
  data ++ sauceBlock data.length title author group yyyymmdd datatype filetype tinfo1 tinfo2

/-- `has_sauce(data)` (sauce.py:17-30): length at least 128 and the magic in
the five-byte window `data[-128:-123]`. -/
def has_sauce (d : List Nat) : Bool :=
  if d.length < 128 then false
  else decide ((d.drop (d.length - 128)).take 5 = sauceMagic)

/-- Whether `b"SAUCE"` occurs in `d` starting at offset `k`. -/
def occursAtB (d : List Nat) (k : Nat) : Bool :=
  decide ((d.drop k).take 5 = sauceMagic)

/-- `data.rfind(b"SAUCE")` (sauce.py:54): the greatest offset at which the
magic occurs, scanning offsets from high to low. -/
def rfindMagic (d : List Nat) : Option Nat :=
  (List.range d.length).reverse.find? (occursAtB d)

/-- `strip_sauce_tail(data)` (sauce.py:33-58): drop the trailing 128 bytes
when the magic sits in the expected window; otherwise defensively truncate
at the last occurrence of the magic if it starts within the final 512
bytes; otherwise return the input unchanged. -/
def strip_sauce_tail (d : List Nat) : List Nat :=
  if 128 ≤ d.length ∧ (d.drop (d.length - 128)).take 5 = sauceMagic then
    d.take (d.length - 128)
  else
    match rfindMagic d with
    | some last => if d.length - last ≤ 512 then d.take last else d
    | none => d

/-! ## Heuristic analyzer (`analyze.py:71-117`)

Only the dimension-estimation loop and the width/height suggestions are
needed by the claims.  The loop is embedded on the remaining suffix with
fuel, one unit per iteration; every iteration consumes at least one
character, so `length + 1` fuel always suffices. -/

/-- One run of the scanning loop of `analyze_bytes` (analyze.py:76-98),
carried state `(cur, maxc, lines)` as in the source (`current_col`,
`max_col`, `lines`); returns the state at loop exit.  Note the source
appends the stale `max_col` before folding in `current_col` on a newline,
and never folds `current_col` in at end of input — both faithfully kept. -/
def dimLoopF : Nat → List Char → Nat → Nat → List Nat → List Nat × Nat × Nat
  | 0, _, cur, maxc, lines => (lines, cur, maxc)
  | fuel + 1, s, cur, maxc, lines =>
    match s with
    | [] => (lines, cur, maxc)
    | c :: rest =>
      if c = '\n' then dimLoopF fuel rest 0 (max maxc cur) (lines ++ [maxc])
      else if c = '\r' then dimLoopF fuel rest 0 maxc lines
      else if c = escChar then
        match rest with
        | '[' :: r2 => dimLoopF fuel ((r2.dropWhile isParamChar).drop 1) cur maxc lines
        | _ => dimLoopF fuel rest cur maxc lines
      else dimLoopF fuel rest (cur + 1) maxc lines

/-- The `(est_rows, est_cols)` pair computed by `analyze_bytes`
(analyze.py:100-102): append the final `max_col`, then row count and
maximum of the recorded line widths. -/
def analyzeDims (text : List Char) : Nat × Nat :=
  let res := dimLoopF (text.length + 1) text 0 0 []
  let lines := res.1 ++ [res.2.2]
  (lines.length, lines.foldr max 0)

/-- Width suggestion (analyze.py:106-109). -/
def suggestedWidth (estCols : Nat) : Nat :=
  if 100 < estCols then 132 else 80

/-- Height suggestion (analyze.py:112-117). -/
def suggestedHeight (estRows : Nat) : Nat :=
  if 25 < estRows ∧ estRows ≤ 50 then 50
  else if 50 < estRows then max 25 estRows
  else 25

/-! ## Invariants of safe-mode output

`KeptFinal`, `SafeText` and `noOscB` are specification-side notions used to
state and prove C8 and C9: a final byte kept by safe-mode classification, a
text that is a concatenation of escape-free runs and kept CSI sequences,
and the absence of any `ESC ]` pair. -/

/-- Final bytes whose CSI sequence is kept (not `drop`ped) by safe-mode
classification; `h`/`l` are kept exactly when a `?` occurs among the
parameter characters. -/
def KeptFinal (fin : Char) (ps : List Char) : Prop :=
  fin ∈ (['m', 'H', 'f', 'A', 'B', 'C', 'D', 'J', 'K', 's', 'u'] : List Char) ∨
    ((fin = 'h' ∨ fin = 'l') ∧ '?' ∈ ps)

/-- Texts built from escape-free characters and complete kept CSI
sequences — the shape of every `filter_safe` output. -/
inductive SafeText : List Char → Prop
  | nil : SafeText []
  | txt (c : Char) (rest : List Char) (hc : c ≠ escChar) (h : SafeText rest) :
      SafeText (c :: rest)
  | csi (ps : List Char) (fin : Char) (rest : List Char)
      (hps : ∀ c ∈ ps, isParamChar c = true) (hfin : KeptFinal fin ps)
      (h : SafeText rest) : SafeText (escChar :: '[' :: (ps ++ fin :: rest))

/-- No `ESC ]` (OSC introducer) pair occurs anywhere in the text. -/
def noOscB : List Char → Bool
  | a :: b :: rest => decide (¬(a = escChar ∧ b = ']')) && noOscB (b :: rest)
  | _ => true

/-! ## Tokenizer step lemmas -/

theorem stepText_emit_eq {s : List Char} {t : Token} {r : List Char}
    (h : stepText s = .emit t r) :
    t.content ++ r = s ∧ r.length < s.length ∧ t.ty = .text ∧
      ∀ c ∈ t.content, c ≠ escChar := by
  unfold stepText at h
  split at h
  · cases h
  · split at h
    · cases h
    · rename_i hsuf hpre
      cases h
      have hsplit := List.takeWhile_append_dropWhile
        (p := fun c => decide (c ≠ escChar)) (l := s)
      refine ⟨hsplit, ?_, rfl, ?_⟩
      · have hlen := congrArg List.length hsplit
        simp only [List.length_append] at hlen
        have hp : (s.takeWhile (fun c => decide (c ≠ escChar))).length ≠ 0 := by
          intro h0
          exact hpre (List.isEmpty_iff.mpr (List.length_eq_zero.mp h0))
        omega
      · intro c hc
        have := List.mem_takeWhile_imp hc
        simpa using this

theorem stepText_last_eq {s : List Char} {t : Token}
    (h : stepText s = .last t) :
    t.content = s ∧ t.ty = .text ∧ ∀ c ∈ t.content, c ≠ escChar := by
  unfold stepText at h
  split at h
  · rename_i hsuf
    cases h
    refine ⟨rfl, rfl, ?_⟩
    intro c hc
    have hall := List.dropWhile_eq_nil_iff.mp (List.isEmpty_iff.mp hsuf)
    simpa using hall c hc
  · split at h
    · cases h
    · cases h

theorem step_emit_eq {safe : Bool} {s : List Char} {t : Token} {r : List Char}
    (h : step safe s = .emit t r) : t.content ++ r = s ∧ r.length < s.length := by
  unfold step at h
  split at h
  · rename_i e c rest
    split at h
    · rename_i he
      split at h
      · rename_i hc
        split at h
        · rename_i fin tail hdw
          cases h
          subst he hc
          have hsplit := List.takeWhile_append_dropWhile (p := isParamChar) (l := rest)
          rw [hdw] at hsplit
          constructor
          · simpa [List.append_assoc] using congrArg (escChar :: '[' :: ·) hsplit
          · have := congrArg List.length hsplit
            simp only [List.length_append, List.length_cons] at this ⊢
            omega
        · rename_i hdw
          have := stepText_emit_eq h
          exact ⟨this.1, this.2.1⟩
      · split at h
        · split at h
          · rename_i n hosc
            cases h
            refine ⟨List.take_append_drop _ _, ?_⟩
            simp only [List.length_drop, List.length_cons]
            omega
          · cases h
        · have := stepText_emit_eq h
          exact ⟨this.1, this.2.1⟩
    · have := stepText_emit_eq h
      exact ⟨this.1, this.2.1⟩
  · have := stepText_emit_eq h
    exact ⟨this.1, this.2.1⟩

theorem step_last_eq {safe : Bool} {s : List Char} {t : Token}
    (h : step safe s = .last t) : t.content = s := by
  unfold step at h
  split at h
  · split at h
    · split at h
      · split at h
        · cases h
        · exact (stepText_last_eq h).1
      · split at h
        · split at h
          · cases h
          · cases h; rfl
        · exact (stepText_last_eq h).1
    · exact (stepText_last_eq h).1
  · exact (stepText_last_eq h).1

theorem step_nil {safe : Bool} : step safe ([] : List Char) = .last ⟨.text, []⟩ := by
  simp [step, stepText]

/-- A stalled state makes the loop run forever: `tokenize_ansi` can return
no answer at any fuel. -/
theorem stall_none {safe : Bool} {s : List Char} (h : step safe s = .stall) :
    ∀ fuel, tokenizeFuel fuel safe s = none := by
  intro fuel
  cases s with
  | nil => rw [step_nil] at h; cases h
  | cons a s' =>
    induction fuel with
    | zero => rfl
    | succ f ih => simp only [tokenizeFuel, h]; exact ih

/-- Reassembly: whenever the tokenizer loop finishes, concatenating all
token contents in order gives back exactly the input. -/
theorem tokenizeFuel_reassembly {fuel : Nat} {safe : Bool} {s : List Char}
    {toks : List Token} (h : tokenizeFuel fuel safe s = some toks) :
    flattenContents toks = s := by
  induction fuel generalizing s toks with
  | zero => cases h
  | succ f ih =>
    cases s with
    | nil =>
      simp only [tokenizeFuel] at h
      cases h
      rfl
    | cons a s' =>
      simp only [tokenizeFuel] at h
      cases hstep : step safe (a :: s') with
      | emit t r =>
        rw [hstep] at h
        rcases Option.map_eq_some'.mp h with ⟨toks', h1, h2⟩
        subst h2
        have hr := ih h1
        have hc := (step_emit_eq hstep).1
        simp only [flattenContents, List.map_cons, List.flatten_cons] at hr ⊢
        rw [hr, hc]
      | last t =>
        rw [hstep] at h
        cases h
        have hc := step_last_eq hstep
        simp [flattenContents, hc]
      | stall =>
        rw [hstep] at h
        exact ih h

/-- Claim C1:  The claim states that `tokenize(text, safe_mode)` terminates on
every input, in particular on an escape followed by a character other than
`[` or `]`, on a truncated `ESC [` sequence, and on `ESC ]` with safe mode
off.  The code loops forever on all three families: in each case control
reaches the regular-text arm with `text.find("\x1b", i) == i`, so `i` never
advances and nothing is yielded.  This theorem exhibits the divergence at
each of the three inputs named by the claim. -/
theorem c1_tokenize_termination_bug :
    (∀ fuel safe, tokenizeFuel fuel safe ("\x1bA".toList) = none) ∧
    (∀ fuel safe, tokenizeFuel fuel safe ("\x1b[".toList) = none) ∧
    (∀ fuel, tokenizeFuel fuel false ("\x1b]x\x07".toList) = none) := by
  refine ⟨fun fuel safe => stall_none ?_ fuel,
          fun fuel safe => stall_none ?_ fuel,
          fun fuel => stall_none ?_ fuel⟩
  · cases safe <;> decide
  · cases safe <;> decide
  · decide

/-- Claim C2:  Reassembly fails on the code as claimed for all `t`: on
`"A\x1b"` the generator yields the token `("text", "A")` and then loops
forever, so no finite token sequence exists whose contents concatenate to
the input (first conjunct).  Whenever the loop does finish, concatenation
of all token contents equals the input exactly, for both safe-mode values
(second conjunct, the intended invariant). -/
theorem c2_reassembly :
    (∀ fuel safe, tokenizeFuel fuel safe ("A\x1b".toList) = none) ∧
    (∀ fuel safe s toks, tokenizeFuel fuel safe s = some toks →
      flattenContents toks = s) := by
  constructor
  · intro fuel safe
    induction fuel with
    | zero => rfl
    | succ f ih =>
      have hstep : step safe ("A\x1b".toList) =
          .emit ⟨.text, ['A']⟩ ['\x1b'] := by cases safe <;> decide
      simp only [tokenizeFuel, hstep] at ih ⊢
      rw [stall_none (s := ['\x1b']) (by cases safe <;> decide) f]
      rfl
  · intro fuel safe s toks h
    exact tokenizeFuel_reassembly h

/-- Witness for C2: the second conjunct applied at a concrete terminating
input. -/
theorem c2_reassembly_witness :
    tokenizeFuel 2 true ("A".toList) = some [⟨.text, ['A']⟩] ∧
      flattenContents [⟨.text, ['A']⟩] = "A".toList :=
  ⟨by decide, c2_reassembly.2 2 true ("A".toList) [⟨.text, ['A']⟩] (by decide)⟩

/-- Claim C3:  The claim says a trailing `ESC [` with parameter characters but no
final byte becomes one single trailing token and never loses bytes.  The
code instead loops forever on such input (e.g. `"\x1b[31"`): the CSI arm
finds no final byte and falls through to the regular-text arm, which makes
no progress.  No token at all is produced, at any fuel, in either safe
mode. -/
theorem c3_truncated_csi_bug :
    ∀ fuel safe, tokenizeFuel fuel safe ("\x1b[31".toList) = none := by
  intro fuel safe
  exact stall_none (by cases safe <;> decide) fuel

/-! ## Analyzer lemmas (C4) -/

/-- On text without newlines or escapes, the scanning loop never touches
`lines` or `max_col`: the source only folds `current_col` into `max_col`
when it sees a newline, and the final `lines.append(max_col)` uses the
stale `max_col`. -/
theorem dimLoopF_no_newline {f : Nat} : ∀ (s : List Char) (cur maxc : Nat)
    (lines : List Nat), (∀ c ∈ s, c ≠ '\n' ∧ c ≠ escChar) →
    ∃ cur', dimLoopF f s cur maxc lines = (lines, cur', maxc) := by
  induction f with
  | zero => intro s cur maxc lines _; exact ⟨cur, rfl⟩
  | succ f ih =>
    intro s cur maxc lines hs
    cases s with
    | nil => exact ⟨cur, rfl⟩
    | cons c rest =>
      have hc := hs c (List.mem_cons_self _ _)
      have hrest : ∀ x ∈ rest, x ≠ '\n' ∧ x ≠ escChar :=
        fun x hx => hs x (List.mem_cons_of_mem _ hx)
      simp only [dimLoopF]
      rw [if_neg hc.1]
      by_cases hcr : c = '\r'
      · rw [if_pos hcr]; exact ih rest 0 maxc lines hrest
      · rw [if_neg hcr, if_neg hc.2]; exact ih rest (cur + 1) maxc lines hrest

/-- Claim C4:  The claim says single-line escape-free text of length N is
reported as N columns, 1 row, suggested 80x25.  The code is wrong about the
columns: because `max_col` is only updated at newlines and the final
`lines.append(max_col)` ignores `current_col`, every text without a newline
(and without escapes) yields estimated columns 0, rows 1 — so at input
`"a"` the code reports 0 where the claim requires 1.  Rows, width and
height behave as claimed. -/
theorem c4_analyze_single_line :
    (∀ s : List Char, (∀ c ∈ s, c ≠ '\n' ∧ c ≠ escChar) → analyzeDims s = (1, 0)) ∧
    analyzeDims ("a".toList) = (1, 0) ∧
    suggestedWidth 0 = 80 ∧ suggestedHeight 1 = 25 := by
  refine ⟨?_, by decide, by decide, by decide⟩
  intro s hs
  obtain ⟨cur', hrun⟩ := dimLoopF_no_newline (f := s.length + 1) s 0 0 [] hs
  simp [analyzeDims, hrun]

/-- Witness for C4: the universally quantified conjunct applied at the
concrete escape-free single-line input `"ab"`. -/
theorem c4_analyze_single_line_witness :
    (∀ c ∈ ("ab".toList), c ≠ '\n' ∧ c ≠ escChar) ∧ analyzeDims ("ab".toList) = (1, 0) :=
  ⟨by decide, c4_analyze_single_line.1 ("ab".toList) (by decide)⟩

/-! ## SAUCE lemmas (C5, C7) -/

/-- Claim C5 counterexample:  The buffer `b"SAUCE"` is shorter than 128 bytes
(so the claim demands `strip_sauce_tail` be a no-op on it), yet the
defensive `rfind` fallback of sauce.py:54-56 finds the magic within the
last 512 bytes and truncates the buffer to empty. -/
theorem c5_counterexample :
    sauceMagic.length < 128 ∧ has_sauce sauceMagic = false ∧
      strip_sauce_tail sauceMagic ≠ sauceMagic := by decide

/-- Claim C5 as amended:  Detection: any buffer shorter than 128 bytes, or whose
expected trailing window lacks the magic, has `has_sauce = false`.
Stripping: `strip_sauce_tail` returns the input unchanged provided the
magic occurs nowhere starting within the last 512 bytes; otherwise the
defensive fallback truncates at the last occurrence. -/
theorem c5_short_buffer_detection :
    (∀ d : List Nat, d.length < 128 → has_sauce d = false) ∧
    (∀ d : List Nat, (d.drop (d.length - 128)).take 5 ≠ sauceMagic → has_sauce d = false) ∧
    (∀ d : List Nat, (∀ k, k < d.length → occursAtB d k = true → 512 < d.length - k) →
      strip_sauce_tail d = d) := by
  refine ⟨?_, ?_, ?_⟩
  · intro d hd
    simp [has_sauce, hd]
  · intro d hd
    simp [has_sauce, hd]
  · intro d hd
    unfold strip_sauce_tail
    rw [if_neg ?hwin]
    case hwin =>
      rintro ⟨hlen, hmagic⟩
      have hocc : occursAtB d (d.length - 128) = true := by
        simp [occursAtB, hmagic]
      have := hd (d.length - 128) (by omega) hocc
      omega
    cases hfind : rfindMagic d with
    | none => rfl
    | some k =>
      have hocc := List.find?_some hfind
      have hmem : k ∈ (List.range d.length).reverse := List.mem_of_find?_eq_some hfind
      rw [List.mem_reverse, List.mem_range] at hmem
      have h512 := hd k hmem hocc
      show (if d.length - k ≤ 512 then List.take k d else d) = d
      rw [if_neg (by omega)]

/-- Witness for C5: the amended conjuncts applied to concrete buffers —
`[7]` is short and magic-free, `[1,2,3]` has no magic occurrence at all. -/
theorem c5_short_buffer_detection_witness :
    has_sauce [7] = false ∧ has_sauce [9] = false ∧ strip_sauce_tail [1, 2, 3] = [1, 2, 3] :=
  ⟨c5_short_buffer_detection.1 [7] (by decide),
   c5_short_buffer_detection.2.1 [9] (by decide),
   c5_short_buffer_detection.2.2 [1, 2, 3] (by decide)⟩

theorem encField_length (s : List Char) (w : Nat) : (encField s w).length = w := by
  simp only [encField, ljustB, List.length_append, List.length_map, List.length_take,
    List.length_replicate]
  omega

theorem optLe2_length (o : Option Nat) : (optLe2 o).length = 2 := by
  cases o <;> rfl

theorem sauceBlock_length (origLen : Nat) (title author group yyyymmdd : List Char)
    (datatype filetype : Nat) (tinfo1 tinfo2 : Option Nat) :
    (sauceBlock origLen title author group yyyymmdd datatype filetype tinfo1 tinfo2).length
      = 128 := by
  simp only [sauceBlock, List.length_append, encField_length, optLe2_length, ljustB,
    List.length_map, List.length_take, List.length_replicate, le4, le2, sauceMagic,
    List.length_cons, List.length_nil]
  omega

/-- Claim C7:  Round trip of the metadata codec: appending a minimal SAUCE block
and stripping it returns the original buffer, and detection succeeds on the
appended result, for every buffer and every choice of fields within the
ranges on which the Python encoder is defined (`to_bytes` and bytearray
byte assignment would raise outside them; none of the bounds are otherwise
used). -/
theorem c7_sauce_append_strip (data : List Nat) (title author group yyyymmdd : List Char)
    (datatype filetype : Nat) (tinfo1 tinfo2 : Option Nat)
    (_hdt : datatype < 256) (_hft : filetype < 256)
    (hlen : data.length < 4294967296)
    (_ht1 : ∀ v, tinfo1 = some v → v < 65536)
    (_ht2 : ∀ v, tinfo2 = some v → v < 65536) :
    strip_sauce_tail (append_minimal_sauce data title author group yyyymmdd
        datatype filetype tinfo1 tinfo2) = data ∧
    has_sauce (append_minimal_sauce data title author group yyyymmdd
        datatype filetype tinfo1 tinfo2) = true := by
  have hblock := sauceBlock_length data.length title author group yyyymmdd
    datatype filetype tinfo1 tinfo2
  have hrlen : (append_minimal_sauce data title author group yyyymmdd
      datatype filetype tinfo1 tinfo2).length = data.length + 128 := by
    simp [append_minimal_sauce, hblock]
  have hsub : (append_minimal_sauce data title author group yyyymmdd
      datatype filetype tinfo1 tinfo2).length - 128 = data.length := by omega
  have hdrop : (append_minimal_sauce data title author group yyyymmdd
      datatype filetype tinfo1 tinfo2).drop data.length =
      sauceBlock data.length title author group yyyymmdd datatype filetype tinfo1 tinfo2 :=
    List.drop_left data _
  have hwindow : ((append_minimal_sauce data title author group yyyymmdd
      datatype filetype tinfo1 tinfo2).drop data.length).take 5 = sauceMagic := by
    rw [hdrop]
    show (sauceMagic ++ _).take 5 = sauceMagic
    rw [show (5 : Nat) = sauceMagic.length from rfl]
    exact List.take_left _ _
  constructor
  · unfold strip_sauce_tail
    rw [if_pos ⟨by omega, by rw [hsub]; exact hwindow⟩, hsub]
    exact List.take_left data _
  · unfold has_sauce
    rw [if_neg (by omega), hsub]
    simp [hwindow]

/-- Witness for C7: the round trip at a concrete buffer and concrete
fields. -/
theorem c7_sauce_append_strip_witness :
    strip_sauce_tail (append_minimal_sauce [65, 66] [] [] [] [] 1 1 none none) = [65, 66] ∧
    has_sauce (append_minimal_sauce [65, 66] [] [] [] [] 1 1 none none) = true :=
  c7_sauce_append_strip [65, 66] [] [] [] [] 1 1 none none
    (by decide) (by decide) (by decide)
    (fun v h => nomatch h) (fun v h => nomatch h)

/-! ## iCE transform lemmas (C6, C10) -/

theorem matchSGR?_some {s raw tail : List Char}
    (h : matchSGR? s = some (raw, tail)) :
    s = escChar :: '[' :: (raw ++ 'm' :: tail) ∧ ∀ c ∈ raw, isSgrChar c = true := by
  unfold matchSGR? at h
  split at h
  · rename_i e c rest
    split at h
    · rename_i hec
      split at h
      · rename_i f tail' hdw
        split at h
        · rename_i hf
          cases h
          subst hf
          obtain ⟨he, hc⟩ := hec
          subst he hc
          have hsplit := List.takeWhile_append_dropWhile (p := isSgrChar) (l := rest)
          rw [hdw] at hsplit
          exact ⟨by rw [hsplit], fun c hc => List.mem_takeWhile_imp hc⟩
        · cases h
      · cases h
    · cases h
  · cases h

theorem matchSGR?_some_length {s raw tail : List Char}
    (h : matchSGR? s = some (raw, tail)) : tail.length + 3 ≤ s.length := by
  have := congrArg List.length (matchSGR?_some h).1
  simp only [List.length_cons, List.length_append] at this
  omega

theorem iceScanF_fuel {a : Nat} : ∀ {b : Nat} {s : List Char},
    s.length < a → s.length < b → iceScanF a s = iceScanF b s := by
  induction a with
  | zero => intro b s h₁ _; omega
  | succ a ih =>
    intro b s h₁ h₂
    cases b with
    | zero => omega
    | succ b =>
      cases s with
      | nil => rfl
      | cons c rest =>
        cases hm : matchSGR? (c :: rest) with
        | none =>
          simp only [iceScanF, hm, List.length_cons] at h₁ h₂ ⊢
          rw [ih (b := b) (by omega) (by omega)]
        | some p =>
          obtain ⟨raw, tail⟩ := p
          have hlen := matchSGR?_some_length hm
          simp only [iceScanF, hm, List.length_cons] at h₁ h₂ hlen ⊢
          rw [ih (b := b) (by omega) (by omega)]

/-- `re.sub` processes the leftmost match and continues after it: if the SGR
pattern matches at the start of `s`, `ice_fix` is the replacement followed
by `ice_fix` of the remainder. -/
theorem iceScanF_cons_match {f : Nat} {c : Char} {rest raw tail : List Char}
    (hm : matchSGR? (c :: rest) = some (raw, tail)) :
    iceScanF (f + 1) (c :: rest) = iceRepl raw ++ iceScanF f tail := by
  show (match matchSGR? (c :: rest) with
        | some (raw, tail) => iceRepl raw ++ iceScanF f tail
        | none => c :: iceScanF f rest) = _
  rw [hm]

theorem ice_fix_match {s raw tail : List Char}
    (h : matchSGR? s = some (raw, tail)) :
    ice_fix s = iceRepl raw ++ ice_fix tail := by
  obtain ⟨hs, -⟩ := matchSGR?_some h
  have hlen := matchSGR?_some_length h
  cases s with
  | nil => cases hs
  | cons c rest =>
    show iceScanF (List.length (c :: rest) + 1) (c :: rest) = _
    rw [List.length_cons, iceScanF_cons_match h]
    simp only [List.length_cons] at hlen
    exact congrArg (iceRepl raw ++ ·)
      (iceScanF_fuel (b := tail.length + 1) (by omega) (by omega))

theorem iceScanF_no_match {f : Nat} : ∀ {s : List Char}, s.length < f →
    (∀ i, i ≤ s.length → matchSGR? (s.drop i) = none) → iceScanF f s = s := by
  induction f with
  | zero => intro s h₁ _; omega
  | succ f ih =>
    intro s h₁ hnm
    cases s with
    | nil => rfl
    | cons c rest =>
      simp only [iceScanF]
      have h0 := hnm 0 (by omega)
      rw [List.drop_zero] at h0
      rw [h0]
      simp only [List.length_cons] at h₁
      rw [ih (by omega) ?_]
      intro i hi
      have := hnm (i + 1) (by simpa using Nat.succ_le_succ hi)
      simpa using this

/-- Claim C6:  The iCE transform, claim by claim: an SGR match whose parameter
list is empty or lacks blink (5) is replaced by itself; one containing
blink is rewritten by the 40-47 → +60 / drop-5 / pass-through map, joined
with `';'`; `ice_fix` applies this replacement at every match, scanning
left to right; text with no SGR match anywhere (at any offset) is returned
unchanged; and the two concrete cases of the spec hold. -/
theorem c6_ice_fix :
    (∀ raw : List Char, (parseParams raw).contains 5 = false →
      iceRepl raw = escChar :: '[' :: (raw ++ ['m'])) ∧
    (∀ raw : List Char, (parseParams raw).contains 5 = true →
      iceRepl raw = escChar :: '[' ::
        (joinParams ((parseParams raw).filterMap iceMap) ++ ['m'])) ∧
    (∀ s raw tail : List Char, matchSGR? s = some (raw, tail) →
      ice_fix s = iceRepl raw ++ ice_fix tail) ∧
    (∀ s : List Char, (∀ i, i ≤ s.length → matchSGR? (s.drop i) = none) →
      ice_fix s = s) ∧
    ice_fix ("\x1b[5;44mTEXT\x1b[0m".toList) = "\x1b[104mTEXT\x1b[0m".toList ∧
    ice_fix ("\x1b[5;31mTEXT\x1b[0m".toList) = "\x1b[31mTEXT\x1b[0m".toList := by
  refine ⟨?_, ?_, ?_, ?_, by decide, by decide⟩
  · intro raw h5
    unfold iceRepl
    split
    · rfl
    · rw [if_pos h5]
  · intro raw h5
    have hraw : raw ≠ [] := by
      rintro rfl
      exact absurd h5 (by decide)
    unfold iceRepl
    rw [if_neg hraw, if_neg (by rw [h5]; simp)]
  · exact fun s raw tail h => ice_fix_match h
  · intro s h
    exact iceScanF_no_match (by omega) h

/-- Witness for C6: the quantified conjuncts applied at concrete
arguments — the no-blink parameter text `"31"`, the blink text `"5;44"`,
the match at the head of `"\x1b[0m"`, and plain SGR-free text `"Hi"`. -/
theorem c6_ice_fix_witness :
    iceRepl ("31".toList) = escChar :: '[' :: ("31".toList ++ ['m']) ∧
    iceRepl ("5;44".toList) = escChar :: '[' ::
      (joinParams ((parseParams ("5;44".toList)).filterMap iceMap) ++ ['m']) ∧
    ice_fix ("\x1b[0m".toList) = iceRepl ("0".toList) ++ ice_fix [] ∧
    ice_fix ("Hi".toList) = "Hi".toList :=
  ⟨c6_ice_fix.1 ("31".toList) (by decide),
   c6_ice_fix.2.1 ("5;44".toList) (by decide),
   c6_ice_fix.2.2.1 ("\x1b[0m".toList) ("0".toList) [] (by decide),
   c6_ice_fix.2.2.2.1 ("Hi".toList) (by decide)⟩

/-- Claim C10:  A blink-only SGR sequence is rewritten to the empty-parameter
sequence `ESC [ m`, not deleted: when every parsed parameter equals 5 the
rewritten list is empty and the serialization is `ESC [ m`; concretely
`ice_fix("\x1b[5m") = "\x1b[m"`. -/
theorem c10_ice_fix_blink_only :
    (∀ raw : List Char, parseParams raw ≠ [] → (∀ p ∈ parseParams raw, p = 5) →
      iceRepl raw = escChar :: '[' :: ['m']) ∧
    ice_fix ("\x1b[5m".toList) = "\x1b[m".toList := by
  refine ⟨?_, by decide⟩
  intro raw hne hall
  have hraw : raw ≠ [] := by
    rintro rfl
    exact hne (by decide)
  have h5 : (parseParams raw).contains 5 = true := by
    cases hp : parseParams raw with
    | nil => exact absurd hp hne
    | cons p ps =>
      have : p = 5 := hall p (by rw [hp]; exact List.mem_cons_self _ _)
      subst this
      simp [List.contains, List.elem_cons]
  have hmap : (parseParams raw).filterMap iceMap = [] := by
    rw [List.filterMap_eq_nil_iff]
    intro p hp
    rw [hall p hp]
    rfl
  unfold iceRepl
  rw [if_neg hraw, if_neg (by rw [h5]; simp), hmap]
  rfl

/-- Witness for C10: the quantified conjunct applied at the concrete
blink-only parameter text `"5;5"`. -/
theorem c10_ice_fix_blink_only_witness :
    iceRepl ("5;5".toList) = escChar :: '[' :: ['m'] :=
  c10_ice_fix_blink_only.1 ("5;5".toList) (by decide) (by decide)

/-! ## Safe-mode output invariants (C8, C9) -/

theorem paramChar_ne_esc {c : Char} (h : isParamChar c = true) : c ≠ escChar := by
  rintro rfl
  exact absurd h (by decide)

theorem keptFinal_not_param {fin : Char} {ps : List Char} (h : KeptFinal fin ps) :
    isParamChar fin = false := by
  rcases h with hmem | ⟨hf, -⟩
  · simp only [List.mem_cons, List.not_mem_nil, or_false] at hmem
    rcases hmem with rfl | rfl | rfl | rfl | rfl | rfl | rfl | rfl | rfl | rfl | rfl <;> decide
  · rcases hf with rfl | rfl <;> decide

theorem keptFinal_ne_esc {fin : Char} {ps : List Char} (h : KeptFinal fin ps) :
    fin ≠ escChar := by
  rcases h with hmem | ⟨hf, -⟩
  · simp only [List.mem_cons, List.not_mem_nil, or_false] at hmem
    rcases hmem with rfl | rfl | rfl | rfl | rfl | rfl | rfl | rfl | rfl | rfl | rfl <;> decide
  · rcases hf with rfl | rfl <;> decide

/-- The head of a `dropWhile` result fails the predicate. -/
theorem dropWhile_head_false {p : Char → Bool} {l : List Char} {x : Char} {xs : List Char}
    (h : l.dropWhile p = x :: xs) : p x = false := by
  induction l with
  | nil => cases h
  | cons a l ih =>
    rw [List.dropWhile_cons] at h
    split at h
    · exact ih h
    · cases h
      rename_i hpa
      exact Bool.not_eq_true _ ▸ (by simpa using hpa)

theorem takeWhile_all_append {p : Char → Bool} {ps : List Char} {fin : Char}
    (rest : List Char) (hps : ∀ c ∈ ps, p c = true) (hfin : p fin = false) :
    (ps ++ fin :: rest).takeWhile p = ps := by
  induction ps with
  | nil => simp [List.takeWhile_cons, hfin]
  | cons a ps ih =>
    rw [List.cons_append, List.takeWhile_cons, if_pos (hps a (List.mem_cons_self _ _))]
    rw [ih (fun c hc => hps c (List.mem_cons_of_mem _ hc))]

theorem dropWhile_all_append {p : Char → Bool} {ps : List Char} {fin : Char}
    (rest : List Char) (hps : ∀ c ∈ ps, p c = true) (hfin : p fin = false) :
    (ps ++ fin :: rest).dropWhile p = fin :: rest := by
  induction ps with
  | nil => simp [List.dropWhile_cons, hfin]
  | cons a ps ih =>
    rw [List.cons_append, List.dropWhile_cons, if_pos (hps a (List.mem_cons_self _ _))]
    exact ih (fun c hc => hps c (List.mem_cons_of_mem _ hc))

/-- A safe-mode CSI classification that is not `drop` certifies a kept
final byte (given that the final byte is not itself a parameter
character, which rules out `?`). -/
theorem classify_ne_drop_keptFinal {ps : List Char} {fin : Char}
    (hfinp : isParamChar fin = false)
    (h : classify true (escChar :: '[' :: (ps ++ [fin])) fin ≠ TokType.drop) :
    KeptFinal fin ps := by
  unfold classify at h
  split_ifs at h with h1 h2 h3 h4 h5 h6 h7
  · exact Or.inl (by subst h1; decide)
  · rcases h2 with rfl | rfl <;> exact Or.inl (by decide)
  · rcases h3 with rfl | rfl | rfl | rfl <;> exact Or.inl (by decide)
  · exact Or.inl (by subst h4; decide)
  · exact Or.inl (by subst h5; decide)
  · refine Or.inr ⟨h6.1, ?_⟩
    have hq := h6.2
    simp only [List.contains, List.elem_eq_mem, decide_eq_true_eq, List.mem_cons,
      List.mem_append, List.mem_singleton] at hq
    rcases hq with hq | hq | hq | hq | hq
    · exact absurd hq (by decide)
    · exact absurd hq (by decide)
    · exact hq
    · subst hq
      exact absurd hfinp (by decide)
    · exact absurd hq (List.not_mem_nil _)
  · rcases h7 with rfl | rfl <;> exact Or.inl (by decide)
  · exact absurd rfl h
  · rename_i hs
    exact absurd rfl hs

/-- Conversely, a kept final byte is classified to a non-`drop` category in
safe mode. -/
theorem keptFinal_classify_ne_drop {ps : List Char} {fin : Char}
    (hkf : KeptFinal fin ps) :
    classify true (escChar :: '[' :: (ps ++ [fin])) fin ≠ TokType.drop := by
  rcases hkf with hmem | ⟨hf, hq⟩
  · simp only [List.mem_cons, List.not_mem_nil, or_false] at hmem
    rcases hmem with rfl | rfl | rfl | rfl | rfl | rfl | rfl | rfl | rfl | rfl | rfl <;>
      simp [classify]
  · have hcont : (escChar :: '[' :: (ps ++ [fin])).contains '?' = true := by
      simp only [List.contains, List.elem_eq_mem, decide_eq_true_eq, List.mem_cons,
        List.mem_append, List.mem_singleton]
      exact Or.inr (Or.inr (Or.inl hq))
    rcases hf with rfl | rfl <;> simp [classify, hcont] <;> intro _ <;> exact hq

theorem safeText_append {a b : List Char} (ha : ∀ c ∈ a, c ≠ escChar)
    (hb : SafeText b) : SafeText (a ++ b) := by
  induction a with
  | nil => exact hb
  | cons c a ih =>
    exact SafeText.txt c _ (ha c (List.mem_cons_self _ _))
      (ih (fun x hx => ha x (List.mem_cons_of_mem _ hx)))

theorem safeText_of_no_esc {a : List Char} (ha : ∀ c ∈ a, c ≠ escChar) : SafeText a := by
  have := safeText_append ha SafeText.nil
  simpa using this

theorem safeText_dropWhile {s : List Char} (h : SafeText s) :
    SafeText (s.dropWhile (fun c => decide (c ≠ escChar))) := by
  induction h with
  | nil => exact SafeText.nil
  | txt c rest hc hrest ih =>
    rw [List.dropWhile_cons, if_pos (by simpa using hc)]
    exact ih
  | csi ps fin rest hps hfin hrest ih =>
    rw [List.dropWhile_cons, if_neg (by simp)]
    exact SafeText.csi ps fin rest hps hfin hrest

theorem flattenKept_cons (t : Token) (ts : List Token) :
    flattenKept (t :: ts) =
      (if t.ty = TokType.drop then [] else t.content) ++ flattenKept ts := by
  by_cases h : t.ty = TokType.drop <;>
    simp [flattenKept, List.filter_cons, h]

/-- A kept token emitted by a safe-mode step prepends safely onto any safe
text: it is either an escape-free run or a complete kept CSI sequence. -/
theorem step_emit_kept_safe {s : List Char} {t : Token} {r X : List Char}
    (hstep : step true s = .emit t r) (hty : t.ty ≠ TokType.drop)
    (hX : SafeText X) : SafeText (t.content ++ X) := by
  have hTextCase : ∀ {t' : Token} {r' : List Char}, stepText s = .emit t' r' →
      SafeText (t'.content ++ X) := by
    intro t' r' hst
    exact safeText_append (stepText_emit_eq hst).2.2.2 hX
  unfold step at hstep
  split at hstep
  · rename_i e c rest
    split at hstep
    · rename_i he
      split at hstep
      · rename_i hc
        split at hstep
        · rename_i fin tail hdw
          cases hstep
          have hps : ∀ x ∈ rest.takeWhile isParamChar, isParamChar x = true :=
            fun x hx => List.mem_takeWhile_imp hx
          have hfinp : isParamChar fin = false := dropWhile_head_false hdw
          have hkf : KeptFinal fin (rest.takeWhile isParamChar) :=
            classify_ne_drop_keptFinal hfinp hty
          show SafeText ((escChar :: '[' :: (rest.takeWhile isParamChar ++ [fin])) ++ X)
          have hre : (escChar :: '[' :: (rest.takeWhile isParamChar ++ [fin])) ++ X
              = escChar :: '[' :: (rest.takeWhile isParamChar ++ fin :: X) := by
            simp
          rw [hre]
          exact SafeText.csi _ _ _ hps hkf hX
        · exact hTextCase hstep
      · split at hstep
        · split at hstep
          · cases hstep
            exact absurd rfl hty
          · cases hstep
        · exact hTextCase hstep
    · exact hTextCase hstep
  · exact hTextCase hstep

/-- Every terminating safe-mode tokenizer run produces a list of tokens
whose kept concatenation is a `SafeText`. -/
theorem tokenizeFuel_safeOut {fuel : Nat} : ∀ {s : List Char} {toks : List Token},
    tokenizeFuel fuel true s = some toks → SafeText (flattenKept toks) := by
  induction fuel with
  | zero => intro s toks h; cases h
  | succ f ih =>
    intro s toks h
    cases s with
    | nil =>
      simp only [tokenizeFuel] at h
      cases h
      exact SafeText.nil
    | cons a s' =>
      simp only [tokenizeFuel] at h
      cases hstep : step true (a :: s') with
      | emit t r =>
        rw [hstep] at h
        rcases Option.map_eq_some'.mp h with ⟨toks', h1, rfl⟩
        have hrest := ih h1
        rw [flattenKept_cons]
        by_cases hty : t.ty = TokType.drop
        · rw [if_pos hty]
          exact hrest
        · rw [if_neg hty]
          exact step_emit_kept_safe hstep hty hrest
      | last t =>
        rw [hstep] at h
        cases h
        rw [show flattenKept [t] = (if t.ty = TokType.drop then [] else t.content) ++ [] from
          flattenKept_cons t []]
        by_cases hty : t.ty = TokType.drop
        · rw [if_pos hty]
          exact SafeText.nil
        · rw [if_neg hty, List.append_nil]
          have hlastText : ∀ {t' : Token}, stepText (a :: s') = .last t' →
              SafeText t'.content := by
            intro t' hst
            obtain ⟨hcon, -, hne⟩ := stepText_last_eq hst
            exact safeText_of_no_esc hne
          unfold step at hstep
          split at hstep
          · rename_i e c rest
            split at hstep
            · split at hstep
              · split at hstep
                · cases hstep
                · exact hlastText hstep
              · split at hstep
                · split at hstep
                  · cases hstep
                  · cases hstep
                    exact absurd rfl hty
                · exact hlastText hstep
            · exact hlastText hstep
          · exact hlastText hstep
      | stall =>
        rw [hstep] at h
        exact ih h

theorem stepText_last_of {s : List Char}
    (h : s.dropWhile (fun c => decide (c ≠ escChar)) = []) :
    stepText s = .last ⟨.text, s⟩ := by
  unfold stepText
  rw [if_pos (List.isEmpty_iff.mpr h)]

theorem stepText_emit_of {s : List Char}
    (h1 : s.dropWhile (fun c => decide (c ≠ escChar)) ≠ [])
    (h2 : s.takeWhile (fun c => decide (c ≠ escChar)) ≠ []) :
    stepText s = .emit ⟨.text, s.takeWhile (fun c => decide (c ≠ escChar))⟩
      (s.dropWhile (fun c => decide (c ≠ escChar))) := by
  unfold stepText
  rw [if_neg (fun hh => h1 (List.isEmpty_iff.mp hh)),
      if_neg (fun hh => h2 (List.isEmpty_iff.mp hh))]

theorem step_ne_esc (safe : Bool) {c : Char} (rest : List Char) (hc : c ≠ escChar) :
    step safe (c :: rest) = stepText (c :: rest) := by
  cases rest with
  | nil => rfl
  | cons d rest' =>
    simp only [step]
    rw [if_neg hc]

/-- Every `SafeText` is tokenized to completion in safe mode, and none of
its tokens is dropped. -/
theorem safeText_tokenizeFuel {fuel : Nat} : ∀ {u : List Char}, SafeText u →
    u.length < fuel →
    ∃ toks, tokenizeFuel fuel true u = some toks ∧ ∀ t ∈ toks, t.ty ≠ TokType.drop := by
  induction fuel with
  | zero => intro u _ hlen; omega
  | succ f ih =>
    intro u hu hlen
    cases hu with
    | nil => exact ⟨[], rfl, by simp⟩
    | txt c rest hc hrest =>
      have hstep := step_ne_esc true rest hc
      cases hsuf : (c :: rest).dropWhile (fun x => decide (x ≠ escChar)) with
      | nil =>
        have hlast : stepText (c :: rest) = .last ⟨.text, c :: rest⟩ :=
          stepText_last_of hsuf
        refine ⟨[⟨.text, c :: rest⟩], ?_, ?_⟩
        · simp only [tokenizeFuel, hstep, hlast]
        · intro t ht
          rcases List.mem_singleton.mp ht with rfl
          simp
      | cons d suf' =>
        have htkw : (c :: rest).takeWhile (fun x => decide (x ≠ escChar)) =
            c :: rest.takeWhile (fun x => decide (x ≠ escChar)) := by
          rw [List.takeWhile_cons, if_pos (by simpa using hc)]
        have hemit : stepText (c :: rest) =
            .emit ⟨.text, (c :: rest).takeWhile (fun x => decide (x ≠ escChar))⟩
              (d :: suf') := by
          rw [← hsuf]
          exact stepText_emit_of (by rw [hsuf]; simp) (by rw [htkw]; simp)
        have hsufSafe : SafeText (d :: suf') := by
          rw [← hsuf]
          exact safeText_dropWhile (SafeText.txt c rest hc hrest)
        have hlensplit := congrArg List.length
          (List.takeWhile_append_dropWhile (p := fun x => decide (x ≠ escChar))
            (l := c :: rest))
        rw [hsuf] at hlensplit
        simp only [List.length_append, List.length_cons] at hlensplit hlen
        have hprelen := congrArg List.length htkw
        simp only [List.length_cons] at hprelen
        obtain ⟨toks, htoks, hkept⟩ := ih hsufSafe
          (by simp only [List.length_cons]; omega)
        refine ⟨⟨.text, (c :: rest).takeWhile (fun x => decide (x ≠ escChar))⟩ :: toks,
          ?_, ?_⟩
        · simp only [tokenizeFuel, hstep, hemit, htoks, Option.map_some']
        · intro t ht
          rcases List.mem_cons.mp ht with rfl | hmem
          · simp
          · exact hkept t hmem
    | csi ps fin rest hps hkf hrest =>
      have hfinp : isParamChar fin = false := keptFinal_not_param hkf
      have htw := takeWhile_all_append rest hps hfinp
      have hdw := dropWhile_all_append rest hps hfinp
      have hstep : step true (escChar :: '[' :: (ps ++ fin :: rest)) =
          .emit ⟨classify true (escChar :: '[' :: (ps ++ [fin])) fin,
                 escChar :: '[' :: (ps ++ [fin])⟩ rest := by
        simp [step, hdw, htw]
      simp only [List.length_cons, List.length_append] at hlen
      obtain ⟨toks, htoks, hkept⟩ := ih hrest (by omega)
      refine ⟨⟨classify true (escChar :: '[' :: (ps ++ [fin])) fin,
               escChar :: '[' :: (ps ++ [fin])⟩ :: toks, ?_, ?_⟩
      · simp only [tokenizeFuel, hstep, htoks, Option.map_some']
      · intro t ht
        rcases List.mem_cons.mp ht with rfl | hmem
        · exact keptFinal_classify_ne_drop hkf
        · exact hkept t hmem

theorem noOscB_cons_of_pair {a : Char} {l : List Char}
    (hpair : ∀ b, l.head? = some b → ¬(a = escChar ∧ b = ']'))
    (hl : noOscB l = true) : noOscB (a :: l) = true := by
  cases l with
  | nil => rfl
  | cons b r =>
    simp only [noOscB, Bool.and_eq_true, decide_eq_true_eq]
    exact ⟨hpair b rfl, hl⟩

theorem noOscB_append_of_no_esc {a v : List Char} (ha : ∀ c ∈ a, c ≠ escChar)
    (hv : noOscB v = true) : noOscB (a ++ v) = true := by
  induction a with
  | nil => exact hv
  | cons c a ih =>
    refine noOscB_cons_of_pair (fun b _ hab => ?_) (ih (fun x hx => ha x (List.mem_cons_of_mem _ hx)))
    exact ha c (List.mem_cons_self _ _) hab.1

/-- A `SafeText` never contains the OSC introducer pair `ESC ]`. -/
theorem safeText_noOsc {u : List Char} (h : SafeText u) : noOscB u = true := by
  induction h with
  | nil => rfl
  | txt c rest hc hrest ih =>
    exact noOscB_cons_of_pair (fun b _ hab => hc hab.1) ih
  | csi ps fin rest hps hkf hrest ih =>
    have h1 : noOscB (fin :: rest) = true :=
      noOscB_cons_of_pair (fun b _ hab => keptFinal_ne_esc hkf hab.1) ih
    have h2 : noOscB (ps ++ fin :: rest) = true :=
      noOscB_append_of_no_esc (fun c hc => paramChar_ne_esc (hps c hc)) h1
    have h3 : noOscB ('[' :: (ps ++ fin :: rest)) = true :=
      noOscB_cons_of_pair (fun b _ hab => absurd hab.1 (by decide)) h2
    refine noOscB_cons_of_pair (fun b hb hab => ?_) h3
    rw [List.head?_cons] at hb
    cases hb
    exact absurd hab.2 (by decide)

/-- Claim C8:  `filter_safe` returns exactly the concatenation, in order and
verbatim, of the non-`drop` token contents of `tokenize(text, safe)` (first
conjunct, definitional); every output it produces contains no `ESC ]` OSC
introducer, and re-tokenizing the output in safe mode succeeds with no
dropped (hence no OSC and no unrecognized-CSI) token at all (second
conjunct); and the concrete case of the spec holds (third conjunct). -/
theorem c8_filter_safe :
    (∀ t : List Char, filter_safe t = Option.map flattenKept (tokenize_ansi t true)) ∧
    (∀ t out : List Char, filter_safe t = some out → noOscB out = true ∧
      ∃ toks, tokenize_ansi out true = some toks ∧ ∀ tok ∈ toks, tok.ty ≠ TokType.drop) ∧
    filter_safe ("\x1b[31mRed\x1b]0;Title\x07".toList) = some ("\x1b[31mRed".toList) := by
  refine ⟨fun t => rfl, ?_, by decide⟩
  intro t out h
  rcases Option.map_eq_some'.mp h with ⟨toks, htoks, rfl⟩
  have hsafe := tokenizeFuel_safeOut htoks
  exact ⟨safeText_noOsc hsafe, safeText_tokenizeFuel hsafe (Nat.lt_succ_self _)⟩

/-- Witness for C8: the second conjunct applied to the concrete input of
the spec's concrete case. -/
theorem c8_filter_safe_witness :
    noOscB ("\x1b[31mRed".toList) = true :=
  (c8_filter_safe.2.1 ("\x1b[31mRed\x1b]0;Title\x07".toList) ("\x1b[31mRed".toList)
    (by decide)).1

/-- Claim C9:  `filter_safe` is idempotent as a partial function: composing it
with itself (in the Kleene sense, `bind`) gives the same result as one
application on every text — when the first application diverges so does
the composition, and when it returns, a second application returns the
same output unchanged. -/
theorem c9_filter_safe_idempotent :
    ∀ t : List Char, (filter_safe t).bind filter_safe = filter_safe t := by
  intro t
  cases h : filter_safe t with
  | none => rfl
  | some out =>
    show filter_safe out = some out
    rcases Option.map_eq_some'.mp h with ⟨toks, htoks, rfl⟩
    have hsafe := tokenizeFuel_safeOut htoks
    obtain ⟨toks', htoks', hkept'⟩ := safeText_tokenizeFuel hsafe (Nat.lt_succ_self _)
    show Option.map flattenKept (tokenizeFuel ((flattenKept toks).length + 1) true
      (flattenKept toks)) = some (flattenKept toks)
    rw [htoks']
    have hall : flattenKept toks' = flattenContents toks' := by
      unfold flattenKept flattenContents
      rw [List.filter_eq_self.mpr (fun a ha => decide_eq_true (hkept' a ha))]
    simp only [Option.map_some']
    rw [hall, tokenizeFuel_reassembly htoks']

end Ansiterm
